import Mathlib

/-! Shallow embedding of a browser-based raffle manager (participant registry,
prize registry, winner ledger, audit log, ticket-pool builder and draw engine),
together with theorems about these operations.  Each operation is translated
from the application source; the small string/number helpers model the
JavaScript platform primitives the source calls. -/

namespace Raffle

/-- Whitespace characters relevant to the strings this application handles
(model of the platform's trimming). -/
def isSpaceChar (c : Char) : Bool := c == ' ' || c == '\t' || c == '\n' || c == '\r'

/-- Platform model: JS `String.prototype.trim`, on the character list. -/
def trimChars (cs : List Char) : List Char :=
  ((cs.dropWhile isSpaceChar).reverse.dropWhile isSpaceChar).reverse

/-- Platform model: JS `String.prototype.trim`. -/
def jsTrim (s : String) : String := String.mk (trimChars s.toList)

/-- Platform model: JS `toLowerCase` on one character (ASCII range, the only
case mapping this application relies on). -/
def lowerChar (c : Char) : Char :=
  if 'A' ≤ c ∧ c ≤ 'Z' then Char.ofNat (c.toNat + 32) else c

/-- Platform model: JS `String.prototype.toLowerCase` (ASCII range). -/
def jsLower (s : String) : String := String.mk (s.toList.map lowerChar)

/-- Split a character list at every character satisfying `p`; models JS
`String.prototype.split` with a single-character-class pattern (adjacent
separators yield empty fields, as in JS). -/
def splitChars (p : Char → Bool) : List Char → List (List Char)
  | [] => [[]]
  | c :: cs =>
    if p c then [] :: splitChars p cs
    else
      match splitChars p cs with
      | [] => [[c]]
      | g :: gs => (c :: g) :: gs

/-- Decimal digits read as a natural number; `none` as soon as a non-digit
character occurs. -/
def digitsToNat (cs : List Char) : Option Nat :=
  cs.foldl
    (fun acc c =>
      acc.bind fun n => if c.isDigit then some (10 * n + (c.toNat - 48)) else none)
    (some 0)

/-- Unsigned decimal literal `digits [ "." digits ]` read as a rational. -/
def parseUnsigned (cs : List Char) : Option ℚ :=
  match splitChars (fun c => c == '.') cs with
  | [ds] => if ds.isEmpty then none else (digitsToNat ds).map (fun n => (n : ℚ))
  | [intDs, fracDs] =>
    if intDs.isEmpty && fracDs.isEmpty then none
    else
      (digitsToNat intDs).bind fun ip =>
        (digitsToNat fracDs).map fun fp =>
          mkRat (ip * 10 ^ fracDs.length + fp) (10 ^ fracDs.length)
  | _ => none

/-- Platform model: JS `Number(string)` conversion, restricted to plain decimal
literals (optional sign, digits, at most one decimal point); the empty or
all-whitespace string converts to 0; every other string (hexadecimal, exponent
or Infinity forms included) is treated as NaN, returned as `none`. -/
def jsNumber (s : String) : Option ℚ :=
  match trimChars s.toList with
  | [] => some 0
  | '-' :: rest => (parseUnsigned rest).map (fun q => -q)
  | '+' :: rest => parseUnsigned rest
  | cs => parseUnsigned cs

/-- JS `x || 0` applied to a number: NaN (and zero itself) give 0. -/
def orZero : Option ℚ → ℚ
  | none => 0
  | some q => q

/-- A registered participant: `{ name: string; qty: number }`. -/
structure Participant where
  name : String
  qty : ℚ
deriving Repr, DecidableEq

/-- A registered prize: `{ name: string; order: number }`. -/
structure Prize where
  name : String
  order : Nat
deriving Repr, DecidableEq

/-- A ledger entry: `{ name; couponNumber; prize; ts }`. -/
structure Winner where
  name : String
  couponNumber : Nat
  prize : String
  ts : String
deriving Repr, DecidableEq

/-- One ticket-pool entry: `{ name; couponNumber }`. -/
structure Coupon where
  name : String
  couponNumber : Nat
deriving Repr, DecidableEq

/-- One audit-log row (Data, Hora, Cupom, Participante, Qtde Cupons, Prêmio). -/
structure AuditRow where
  data : String
  hora : String
  cupom : Nat
  participante : String
  qtdeCupons : ℚ
  premio : String
deriving Repr, DecidableEq

/-- The application state: the four persisted collections plus the highlighted
winner of the last draw. -/
structure AppState where
  participants : List Participant
  prizes : List Prize
  winners : List Winner
  audit : List AuditRow
  highlight : Option Winner
deriving Repr, DecidableEq

/-- Membership test of `winnersSet = new Set(winners.map(w => (w.name || "").toLowerCase()))`:
`winnersHas ws key` is `winnersSet.has(key)`. -/
def winnersHas (winners : List Winner) (key : String) : Bool :=
  winners.any fun w => jsLower w.name == key

/-- `remainingPrizes = prizes.filter(pr => !winners.some(w => w.prize === pr.name))`. -/
def remainingPrizes (prizes : List Prize) (winners : List Winner) : List Prize :=
  prizes.filter fun pr => !(winners.any fun w => w.prize == pr.name)

/-- Iteration count of `for (let i = 1; i <= qty; i++)` where
`qty = Math.max(0, Number(p.qty) || 0)` (on a stored number, `Number(x) || 0`
is the identity in this model, which has no NaN-valued `qty`). -/
def couponCount (q : ℚ) : Nat := (Int.floor (max 0 q)).toNat

/-- The coupons one participant contributes to the pool:
`{ name: p.name, couponNumber: i }` for `i = 1 .. qty`. -/
def couponsFor (p : Participant) : List Coupon :=
  (List.range' 1 (couponCount p.qty)).map fun i => ⟨p.name, i⟩

/-- The ticket pool loop of `couponsPool` (and of the identical inline pool
computation in `drawCore`): skip participants whose lowercased name is in the
winners set, otherwise push one entry per coupon number. -/
def couponsPool : List Participant → List Winner → List Coupon
  | [], _ => []
  | p :: ps, ws =>
    if winnersHas ws (jsLower p.name) then couponsPool ps ws
    else couponsFor p ++ couponsPool ps ws

/-- `addParticipant`: trim the name, convert the quantity string with
`Number`; reject empty name, non-finite or non-positive quantity, and
case-insensitive duplicates; otherwise append. -/
def addParticipant (nameRaw qtyRaw : String) (prev : List Participant) : List Participant :=
  let name := jsTrim nameRaw
  match jsNumber qtyRaw with
  | none => prev
  | some qty =>
    if name = "" ∨ qty ≤ 0 then prev
    else if prev.any (fun x => jsLower x.name == jsLower name) then prev
    else prev ++ [⟨name, qty⟩]

/-- `editParticipantQty`: `qty = Math.max(0, Number(newQty) || 0)`, then update
the participant whose stored name equals `name` exactly. -/
def editParticipantQty (name newQty : String) (prev : List Participant) : List Participant :=
  let qty := max 0 (orZero (jsNumber newQty))
  prev.map fun p => if p.name = name then { p with qty := qty } else p

/-- `removeParticipant`: `prev.filter(p => p.name !== name)`. -/
def removeParticipant (name : String) (prev : List Participant) : List Participant :=
  prev.filter fun p => p.name != name

/-- Field splitting of one bulk-import line:
`line.split(/[,;\t]/).map(x => x.trim()).filter(Boolean)`. -/
def splitFields (line : String) : List String :=
  (((splitChars (fun c => c == ',' || c == ';' || c == '\t') line.toList).map
      trimChars).filter fun cs => !cs.isEmpty).map String.mk

/-- Line splitting of `bulkImport`:
`raw.split(/\n+/).map(l => l.trim()).filter(Boolean)`.  Splitting at every
single newline gives the same result after the empty-line filter as splitting
at runs of newlines. -/
def splitLines (raw : String) : List String :=
  (((splitChars (fun c => c == '\n') raw.toList).map trimChars).filter
      fun cs => !cs.isEmpty).map String.mk

/-- Accumulator of the `bulkImport` loop: the accepted rows and the skip count. -/
structure BulkResult where
  toAdd : List Participant
  skipped : Nat
deriving Repr, DecidableEq

/-- Body of the `for (const line of lines)` loop of `bulkImport`. -/
def bulkStep (lowerExisting : List String) (acc : BulkResult) (line : String) : BulkResult :=
  let parts := splitFields line
  let name := parts.headD ""
  match jsNumber (parts.getD 1 "0") with
  | none => { acc with skipped := acc.skipped + 1 }
  | some qty =>
    if name = "" ∨ qty ≤ 0 then { acc with skipped := acc.skipped + 1 }
    else
      let key := jsLower name
      if lowerExisting.contains key || acc.toAdd.any (fun x => jsLower x.name == key) then
        { acc with skipped := acc.skipped + 1 }
      else { acc with toAdd := acc.toAdd ++ [⟨name, qty⟩] }

/-- `bulkImport`: parse all lines against the existing lowercased names,
append the accepted rows, and report the skip count.  (When there are no
lines the source returns early; the result below is the same.) -/
def bulkImport (raw : String) (participants : List Participant) : List Participant × Nat :=
  let lines := splitLines raw
  let lowerExisting := participants.map fun p => jsLower p.name
  let res := lines.foldl (bulkStep lowerExisting) ⟨[], 0⟩
  (participants ++ res.toAdd, res.skipped)

/-- `addPrize`: trim the name; no-op when empty, else append with
`order = prev.length + 1`. -/
def addPrize (nameRaw : String) (prev : List Prize) : List Prize :=
  let nm := jsTrim nameRaw
  if nm = "" then prev else prev ++ [⟨nm, prev.length + 1⟩]

/-- The `.map((p, i) => ({ ...p, order: i + 1 }))` renumbering of `removePrize`,
with `k` the number of elements already emitted. -/
def renumberFrom (k : Nat) : List Prize → List Prize
  | [] => []
  | p :: ps => { p with order := k + 1 } :: renumberFrom (k + 1) ps

/-- `removePrize`: drop every prize whose stored name equals `name` exactly,
then renumber the rest to `1..M`. -/
def removePrize (name : String) (prev : List Prize) : List Prize :=
  renumberFrom 0 (prev.filter fun p => p.name != name)

/-- `resetWinners`: clear the ledger and the highlighted winner only. -/
def resetWinners (st : AppState) : AppState :=
  { st with winners := [], highlight := none }

/-- `hardReset`; `confirmed` models the result of the `confirm(...)` dialog. -/
def hardReset (confirmed : Bool) (st : AppState) : AppState :=
  if confirmed then
    { participants := [], prizes := [], winners := [], audit := [], highlight := none }
  else st

/-- `drawCore`.  `r` models the platform random draw: the selected index is
`r % pool.length`, exactly the range of `Math.floor(Math.random() * pool.length)`;
`ts`, `d`, `t` model `toISOString`, `toLocaleDateString`, `toLocaleTimeString`
of the draw instant.  The `getD`/`headD` defaults are never reached: both lists
are non-empty in the branch that uses them. -/
def drawCore (r : Nat) (ts d t : String) (st : AppState) : Option Winner × AppState :=
  let currentPool := couponsPool st.participants st.winners
  let currentRemaining := remainingPrizes st.prizes st.winners
  if currentPool.isEmpty then (none, st)
  else if currentRemaining.isEmpty then (none, st)
  else
    let pick := currentPool.getD (r % currentPool.length) ⟨"", 0⟩
    let prize := currentRemaining.headD ⟨"", 0⟩
    let win : Winner := ⟨pick.name, pick.couponNumber, prize.name, ts⟩
    let row : AuditRow :=
      ⟨d, t, pick.couponNumber, pick.name,
        orZero ((st.participants.find? fun p => p.name == pick.name).map Participant.qty),
        prize.name⟩
    (some win,
      { st with
          winners := st.winners ++ [win]
          audit := st.audit ++ [row]
          highlight := some win })

/-- The user-triggered operations that mutate the application state. -/
inductive Action where
  | register (nameRaw qtyRaw : String)
  | bulkAdd (raw : String)
  | editQty (name newQty : String)
  | removePart (name : String)
  | prizeAdd (nameRaw : String)
  | prizeRemove (name : String)
  | resetW
  | reset (confirmed : Bool)
  | drawA (r : Nat) (ts d t : String)
  | auditClear

/-- Effect of one user operation on the application state. -/
def step (st : AppState) : Action → AppState
  | .register n q => { st with participants := addParticipant n q st.participants }
  | .bulkAdd raw => { st with participants := (bulkImport raw st.participants).1 }
  | .editQty n v => { st with participants := editParticipantQty n v st.participants }
  | .removePart n => { st with participants := removeParticipant n st.participants }
  | .prizeAdd n => { st with prizes := addPrize n st.prizes }
  | .prizeRemove n => { st with prizes := removePrize n st.prizes }
  | .resetW => resetWinners st
  | .reset c => hardReset c st
  | .drawA r ts d t => (drawCore r ts d t st).2
  | .auditClear => { st with audit := [] }

/-- The initial state: every collection empty (the storage default). -/
def initState : AppState := ⟨[], [], [], [], none⟩

/-- States reachable from the initial state by user operations. -/
inductive Reachable : AppState → Prop where
  | init : Reachable initState
  | step : ∀ {st : AppState} (a : Action), Reachable st → Reachable (step st a)

/-- Spec-side description of the ticket pool, following the specification's
words: one entry per ticket number `1..count` for each participant whose
lowercased name is absent from the lowercased Winner Ledger names, in
registry order and ascending ticket number. -/
def poolSpec (ps : List Participant) (ws : List Winner) : List Coupon :=
  (ps.filter fun p => !((ws.map fun w => jsLower w.name).contains (jsLower p.name))).flatMap
    fun p => (List.range' 1 (couponCount p.qty)).map fun i => ⟨p.name, i⟩

/-! Helper lemmas about the renumbering performed by `removePrize`. -/

theorem renumberFrom_map_order : ∀ (l : List Prize) (k : Nat),
    (renumberFrom k l).map Prize.order = List.range' (k + 1) l.length
  | [], _ => rfl
  | p :: ps, k => by
    simp only [renumberFrom, List.map_cons, List.length_cons, List.range'_succ,
      renumberFrom_map_order ps (k + 1)]

theorem renumberFrom_map_name : ∀ (l : List Prize) (k : Nat),
    (renumberFrom k l).map Prize.name = l.map Prize.name
  | [], _ => rfl
  | p :: ps, k => by
    simp only [renumberFrom, List.map_cons, renumberFrom_map_name ps (k + 1)]

theorem renumberFrom_length : ∀ (l : List Prize) (k : Nat),
    (renumberFrom k l).length = l.length
  | [], _ => rfl
  | p :: ps, k => by
    simp only [renumberFrom, List.length_cons, renumberFrom_length ps (k + 1)]

theorem renumberFrom_eq_self : ∀ (l : List Prize) (k : Nat),
    l.map Prize.order = List.range' (k + 1) l.length → renumberFrom k l = l
  | [], _, _ => rfl
  | p :: ps, k, h => by
    simp only [List.map_cons, List.length_cons, List.range'_succ, List.cons.injEq] at h
    obtain ⟨h1, h2⟩ := h
    simp only [renumberFrom, renumberFrom_eq_self ps (k + 1) h2]
    cases p
    simp_all

/-- The claim-C3 precondition: empty ticket pool or no remaining prize. -/
theorem claimC3 (r : Nat) (ts d t : String) (st : AppState)
    (h : couponsPool st.participants st.winners = [] ∨
        remainingPrizes st.prizes st.winners = []) :
    drawCore r ts d t st = (none, st) := by
  unfold drawCore
  rcases h with h | h <;> simp only [h, List.isEmpty_nil, if_true]
  split <;> rfl

theorem claimC3_witness :
    (couponsPool initState.participants initState.winners = [] ∨
      remainingPrizes initState.prizes initState.winners = []) ∧
    drawCore 0 "ts" "d" "t" initState = (none, initState) :=
  ⟨Or.inl rfl, claimC3 0 "ts" "d" "t" initState (Or.inl rfl)⟩

/-- Claim C5: bulk import of `"A,5\nB,-1\na,3\nC,2"` into an empty registry
accepts `A:5` and `C:2` and skips two lines (non-positive count; case-insensitive
duplicate of a name accepted earlier in the same batch). -/
theorem claimC5 :
    bulkImport "A,5\nB,-1\na,3\nC,2" [] = ([⟨"A", 5⟩, ⟨"C", 2⟩], 2) := by
  decide

/-- Claim C7: on a prize list whose draw-order values are `1..N`, removal
yields draw-order values `1..M` with the relative order (the name sequence) of
the surviving prizes preserved. -/
theorem claimC7 (ps : List Prize) (name : String)
    (h : ps.map Prize.order = List.range' 1 ps.length) :
    (removePrize name ps).map Prize.order =
        List.range' 1 (removePrize name ps).length ∧
    (removePrize name ps).map Prize.name =
        (ps.filter fun p => p.name != name).map Prize.name := by
  unfold removePrize
  refine ⟨?_, renumberFrom_map_name _ _⟩
  rw [renumberFrom_map_order, renumberFrom_length]

theorem claimC7_witness :
    (([⟨"P1", 1⟩, ⟨"P2", 2⟩, ⟨"P3", 3⟩] : List Prize).map Prize.order =
        List.range' 1 ([⟨"P1", 1⟩, ⟨"P2", 2⟩, ⟨"P3", 3⟩] : List Prize).length) ∧
    ((removePrize "P2" [⟨"P1", 1⟩, ⟨"P2", 2⟩, ⟨"P3", 3⟩]).map Prize.order =
        List.range' 1 (removePrize "P2" [⟨"P1", 1⟩, ⟨"P2", 2⟩, ⟨"P3", 3⟩]).length ∧
      (removePrize "P2" [⟨"P1", 1⟩, ⟨"P2", 2⟩, ⟨"P3", 3⟩]).map Prize.name =
        (([⟨"P1", 1⟩, ⟨"P2", 2⟩, ⟨"P3", 3⟩] : List Prize).filter
            fun p => p.name != "P2").map Prize.name) :=
  ⟨by decide, claimC7 [⟨"P1", 1⟩, ⟨"P2", 2⟩, ⟨"P3", 3⟩] "P2" (by decide)⟩

/-- Claim C8: `resetWinners` empties the ledger and leaves the participant
registry, the prize registry and the audit log unchanged; a confirmed
`hardReset` empties all four collections. -/
theorem claimC8 (st : AppState) :
    (resetWinners st).winners = [] ∧
    (resetWinners st).participants = st.participants ∧
    (resetWinners st).prizes = st.prizes ∧
    (resetWinners st).audit = st.audit ∧
    (hardReset true st).participants = [] ∧
    (hardReset true st).prizes = [] ∧
    (hardReset true st).winners = [] ∧
    (hardReset true st).audit = [] := by
  simp [resetWinners, hardReset]

/-- Claim C10: both removal operations compare stored names to the argument by
exact string equality: a non-matching list (for instance one differing only in
letter case) is left unchanged, every exact match is deleted (all of them when
several prizes share the name), and non-matching entries survive in order. -/
theorem claimC10 (name : String) (ps : List Participant) (qs : List Prize)
    (hq : qs.map Prize.order = List.range' 1 qs.length) :
    ((∀ p ∈ ps, p.name ≠ name) → removeParticipant name ps = ps) ∧
    (∀ p ∈ removeParticipant name ps, p.name ≠ name) ∧
    (∀ p ∈ ps, p.name ≠ name → p ∈ removeParticipant name ps) ∧
    ((∀ q ∈ qs, q.name ≠ name) → removePrize name qs = qs) ∧
    (∀ q ∈ removePrize name qs, q.name ≠ name) ∧
    (removePrize name qs).map Prize.name =
        (qs.filter fun q => q.name != name).map Prize.name := by
  refine ⟨?_, ?_, ?_, ?_, ?_, renumberFrom_map_name _ _⟩
  · intro h
    unfold removeParticipant
    exact List.filter_eq_self.mpr fun p hp => by simpa using h p hp
  · intro p hp
    unfold removeParticipant at hp
    simpa using (List.mem_filter.mp hp).2
  · intro p hp h
    unfold removeParticipant
    exact List.mem_filter.mpr ⟨hp, by simpa using h⟩
  · intro h
    unfold removePrize
    rw [List.filter_eq_self.mpr fun q hq2 => by simpa using h q hq2]
    exact renumberFrom_eq_self qs 0 hq
  · intro q hq2
    have hmem : q.name ∈ (removePrize name qs).map Prize.name :=
      List.mem_map_of_mem Prize.name hq2
    rw [removePrize, renumberFrom_map_name] at hmem
    obtain ⟨p, hp, hpq⟩ := List.mem_map.mp hmem
    have := (List.mem_filter.mp hp).2
    simp only [bne_iff_ne, ne_eq] at this
    rw [← hpq]
    exact this

theorem claimC10_witness :
    (([⟨"JBL", 1⟩, ⟨"JBL", 2⟩, ⟨"TV", 3⟩] : List Prize).map Prize.order =
        List.range' 1 ([⟨"JBL", 1⟩, ⟨"JBL", 2⟩, ⟨"TV", 3⟩] : List Prize).length) ∧
    (((∀ p ∈ ([⟨"Ana", 2⟩] : List Participant), p.name ≠ "ana") →
        removeParticipant "ana" [⟨"Ana", 2⟩] = [⟨"Ana", 2⟩]) ∧
      (∀ p ∈ removeParticipant "ana" [⟨"Ana", 2⟩], p.name ≠ "ana") ∧
      (∀ p ∈ ([⟨"Ana", 2⟩] : List Participant), p.name ≠ "ana" →
        p ∈ removeParticipant "ana" [⟨"Ana", 2⟩]) ∧
      ((∀ q ∈ ([⟨"JBL", 1⟩, ⟨"JBL", 2⟩, ⟨"TV", 3⟩] : List Prize), q.name ≠ "ana") →
        removePrize "ana" [⟨"JBL", 1⟩, ⟨"JBL", 2⟩, ⟨"TV", 3⟩] =
          [⟨"JBL", 1⟩, ⟨"JBL", 2⟩, ⟨"TV", 3⟩]) ∧
      (∀ q ∈ removePrize "ana" [⟨"JBL", 1⟩, ⟨"JBL", 2⟩, ⟨"TV", 3⟩], q.name ≠ "ana") ∧
      (removePrize "ana" [⟨"JBL", 1⟩, ⟨"JBL", 2⟩, ⟨"TV", 3⟩]).map Prize.name =
        (([⟨"JBL", 1⟩, ⟨"JBL", 2⟩, ⟨"TV", 3⟩] : List Prize).filter
            fun q => q.name != "ana").map Prize.name) :=
  ⟨by decide, claimC10 "ana" [⟨"Ana", 2⟩] [⟨"JBL", 1⟩, ⟨"JBL", 2⟩, ⟨"TV", 3⟩] (by decide)⟩

/-- The rational 5/2 (the value of `Number("2.5")`) is not an integer. -/
theorem fiveHalvesNotInt : ∀ n : ℤ, mkRat 5 2 ≠ (n : ℚ) := by
  intro n h
  have hd : (mkRat 5 2).den = 1 := by rw [h]; exact Rat.den_intCast n
  exact absurd hd (by decide)

/-- Claim C6 counterexample: `Register("X", "2.5")` parses the count to the
non-integer 5/2, yet appends the participant instead of being a no-op. -/
theorem claimC6_cex :
    jsNumber "2.5" = some (mkRat 5 2) ∧
    (∀ n : ℤ, mkRat 5 2 ≠ (n : ℚ)) ∧
    addParticipant "X" "2.5" [] = [⟨"X", mkRat 5 2⟩] :=
  ⟨by decide, fiveHalvesNotInt, by decide⟩

/-- Claim C6 as amended: `addParticipant` is a no-op whenever the trimmed name
is empty, the count string is not numeric, the count is non-positive, or the
name already exists case-insensitively; on success (trimmed name non-empty,
count a finite positive number — integral or not) it appends the participant
at the end. -/
theorem claimC6_amended (nameRaw qtyRaw : String) (prev : List Participant) :
    ((jsTrim nameRaw = "" ∨ jsNumber qtyRaw = none ∨
        (∃ q, jsNumber qtyRaw = some q ∧ q ≤ 0) ∨
        (∃ p ∈ prev, jsLower p.name = jsLower (jsTrim nameRaw))) →
      addParticipant nameRaw qtyRaw prev = prev) ∧
    (∀ q, jsNumber qtyRaw = some q → jsTrim nameRaw ≠ "" → 0 < q →
      (∀ p ∈ prev, jsLower p.name ≠ jsLower (jsTrim nameRaw)) →
      addParticipant nameRaw qtyRaw prev = prev ++ [⟨jsTrim nameRaw, q⟩]) := by
  constructor
  · intro h
    cases hq : jsNumber qtyRaw with
    | none => simp [addParticipant, hq]
    | some q =>
      simp only [addParticipant, hq]
      rcases h with h | h | ⟨q', hq', hle⟩ | ⟨p, hp, hlow⟩
      · simp [h]
      · exact absurd hq (by simp [h])
      · rw [hq] at hq'
        cases hq'
        simp [hle]
      · by_cases hcond : jsTrim nameRaw = "" ∨ q ≤ 0
        · simp [hcond]
        · rw [if_neg hcond, if_pos]
          simp only [List.any_eq_true, beq_iff_eq]
          exact ⟨p, hp, hlow⟩
  · intro q hq hname hpos hfresh
    simp only [addParticipant, hq]
    rw [if_neg (by push_neg; exact ⟨hname, hpos⟩), if_neg]
    simp only [List.any_eq_true, beq_iff_eq, not_exists, not_and]
    exact hfresh

theorem claimC6_witness :
    addParticipant "Bob" "3" [] = [⟨"Bob", 3⟩] ∧ addParticipant "  " "5" [] = [] := by
  constructor
  · have h := (claimC6_amended "Bob" "3" []).2 3 (by decide) (by decide) (by decide)
      (by simp)
    rw [h]; decide
  · exact (claimC6_amended "  " "5" []).1 (Or.inl (by decide))

/-- Claim C9 counterexample: `EditCount("A", "2.5")` stores the non-integer
count 5/2. -/
theorem claimC9_cex :
    editParticipantQty "A" "2.5" [⟨"A", 1⟩] = [⟨"A", mkRat 5 2⟩] ∧
    (∀ n : ℤ, mkRat 5 2 ≠ (n : ℚ)) :=
  ⟨by decide, fiveHalvesNotInt⟩

/-- Claim C9 as amended: `editParticipantQty` stores
`max 0 (Number(newValue) || 0)` — a non-negative number, 0 for non-numeric
input, 0 for non-positive values, but possibly fractional — in the entry whose
stored name equals `name` exactly, and preserves the name sequence (hence the
order) and every other participant. -/
theorem claimC9_amended (name newQty : String) (prev : List Participant) :
    (0 : ℚ) ≤ max 0 (orZero (jsNumber newQty)) ∧
    (jsNumber newQty = none → max 0 (orZero (jsNumber newQty)) = 0) ∧
    (∀ x, jsNumber newQty = some x → x ≤ 0 →
      max 0 (orZero (jsNumber newQty)) = 0) ∧
    (editParticipantQty name newQty prev).map Participant.name =
        prev.map Participant.name ∧
    (∀ p ∈ prev, p.name ≠ name → p ∈ editParticipantQty name newQty prev) ∧
    (∀ p ∈ editParticipantQty name newQty prev, p.name = name →
      p.qty = max 0 (orZero (jsNumber newQty))) := by
  refine ⟨le_max_left 0 _, ?_, ?_, ?_, ?_, ?_⟩
  · intro h; simp [h, orZero]
  · intro x hx hle; simp [hx, orZero, max_eq_left hle]
  · unfold editParticipantQty
    rw [List.map_map]
    refine List.map_congr_left fun p _ => ?_
    by_cases h : p.name = name <;> simp [h]
  · intro p hp h
    unfold editParticipantQty
    have : (if p.name = name then
        { p with qty := max 0 (orZero (jsNumber newQty)) } else p) = p := by
      rw [if_neg h]
    exact this ▸ List.mem_map_of_mem _ hp
  · intro p hp h
    unfold editParticipantQty at hp
    obtain ⟨p', _, hp'⟩ := List.mem_map.mp hp
    by_cases h' : p'.name = name
    · rw [if_pos h'] at hp'
      rw [← hp']
    · rw [if_neg h'] at hp'
      exact absurd (hp' ▸ h) h'

theorem claimC9_witness :
    (0 : ℚ) ≤ max 0 (orZero (jsNumber "xyz")) ∧
    (jsNumber "xyz" = none → max 0 (orZero (jsNumber "xyz")) = 0) ∧
    (∀ x, jsNumber "xyz" = some x → x ≤ 0 →
      max 0 (orZero (jsNumber "xyz")) = 0) ∧
    (editParticipantQty "A" "xyz" [⟨"A", 4⟩, ⟨"B", 2⟩]).map Participant.name =
        ([⟨"A", 4⟩, ⟨"B", 2⟩] : List Participant).map Participant.name ∧
    (∀ p ∈ ([⟨"A", 4⟩, ⟨"B", 2⟩] : List Participant), p.name ≠ "A" →
      p ∈ editParticipantQty "A" "xyz" [⟨"A", 4⟩, ⟨"B", 2⟩]) ∧
    (∀ p ∈ editParticipantQty "A" "xyz" [⟨"A", 4⟩, ⟨"B", 2⟩], p.name = "A" →
      p.qty = max 0 (orZero (jsNumber "xyz"))) :=
  claimC9_amended "A" "xyz" [⟨"A", 4⟩, ⟨"B", 2⟩]

/-! Helper lemmas for the ticket-pool characterization. -/

theorem winnersHas_eq_contains (ws : List Winner) (key : String) :
    winnersHas ws key = (ws.map fun w => jsLower w.name).contains key := by
  rw [Bool.eq_iff_iff]
  simp only [winnersHas, List.any_eq_true, beq_iff_eq,
    List.contains_iff_exists_mem_beq, List.mem_map]
  constructor
  · rintro ⟨w, hw, rfl⟩
    exact ⟨jsLower w.name, ⟨w, hw, rfl⟩, by simp⟩
  · rintro ⟨b, ⟨w, hw, rfl⟩, hb⟩
    exact ⟨w, hw, hb.symm⟩

theorem couponCount_natCast (n : ℕ) : couponCount (n : ℚ) = n := by
  unfold couponCount
  rw [max_eq_right (by positivity), Int.floor_natCast, Int.toNat_natCast]

theorem couponsPool_eq_poolSpec (ps : List Participant) (ws : List Winner) :
    couponsPool ps ws = poolSpec ps ws := by
  induction ps with
  | nil => rfl
  | cons p ps ih =>
    by_cases h : winnersHas ws (jsLower p.name)
    · rw [show couponsPool (p :: ps) ws = couponsPool ps ws by simp [couponsPool, h], ih]
      unfold poolSpec
      rw [List.filter_cons, if_neg (by rw [← winnersHas_eq_contains]; simp [h])]
    · rw [show couponsPool (p :: ps) ws = couponsFor p ++ couponsPool ps ws by
        simp [couponsPool, h], ih]
      unfold poolSpec
      rw [List.filter_cons, if_pos (by rw [← winnersHas_eq_contains]; simp [h]),
        List.flatMap_cons]
      rfl

theorem couponsPool_length (ws : List Winner) : ∀ ps : List Participant,
    (∀ p ∈ ps, ∃ n : ℕ, p.qty = (n : ℚ)) →
    ((couponsPool ps ws).length : ℚ) =
      ((ps.filter fun p => !(winnersHas ws (jsLower p.name))).map Participant.qty).sum
  | [], _ => by simp [couponsPool]
  | p :: ps, hnat => by
    have ihn := couponsPool_length ws ps fun q hq => hnat q (List.mem_cons_of_mem p hq)
    obtain ⟨n, hn⟩ := hnat p (List.mem_cons_self p ps)
    by_cases h : winnersHas ws (jsLower p.name)
    · rw [show couponsPool (p :: ps) ws = couponsPool ps ws by simp [couponsPool, h],
        List.filter_cons, if_neg (by simp [h]), ihn]
    · rw [show couponsPool (p :: ps) ws = couponsFor p ++ couponsPool ps ws by
        simp [couponsPool, h],
        List.filter_cons, if_pos (by simp [h]), List.length_append, List.map_cons,
        List.sum_cons, ← ihn]
      have hlen : (couponsFor p).length = n := by
        simp [couponsFor, hn, couponCount_natCast]
      rw [hlen, hn]
      push_cast
      ring

/-- Claim C2: the ticket pool is exactly the spec-described pool (one entry per
ticket number `1..count` for each participant whose lowercased name is absent
from the lowercased ledger names, in registry order then ascending ticket
number), and — ticket-counts being natural numbers, as the data model
prescribes — its size is the sum of ticket-counts over participants not in the
ledger. -/
theorem claimC2 (ps : List Participant) (ws : List Winner)
    (hnat : ∀ p ∈ ps, ∃ n : ℕ, p.qty = (n : ℚ)) :
    couponsPool ps ws = poolSpec ps ws ∧
    ((couponsPool ps ws).length : ℚ) =
      ((ps.filter fun p => !(winnersHas ws (jsLower p.name))).map Participant.qty).sum :=
  ⟨couponsPool_eq_poolSpec ps ws, couponsPool_length ws ps hnat⟩

theorem claimC2_witness :
    (∀ p ∈ ([⟨"A", 2⟩, ⟨"B", 1⟩] : List Participant), ∃ n : ℕ, p.qty = (n : ℚ)) ∧
    (couponsPool [⟨"A", 2⟩, ⟨"B", 1⟩] [⟨"a", 1, "P", "ts"⟩] =
        poolSpec [⟨"A", 2⟩, ⟨"B", 1⟩] [⟨"a", 1, "P", "ts"⟩] ∧
      ((couponsPool [⟨"A", 2⟩, ⟨"B", 1⟩] [⟨"a", 1, "P", "ts"⟩]).length : ℚ) =
        ((([⟨"A", 2⟩, ⟨"B", 1⟩] : List Participant).filter
            fun p => !(winnersHas [⟨"a", 1, "P", "ts"⟩] (jsLower p.name))).map
          Participant.qty).sum) := by
  have hw : ∀ p ∈ ([⟨"A", 2⟩, ⟨"B", 1⟩] : List Participant), ∃ n : ℕ, p.qty = (n : ℚ) := by
    intro p hp
    simp only [List.mem_cons, List.not_mem_nil, or_false] at hp
    rcases hp with rfl | rfl
    · exact ⟨2, by norm_num⟩
    · exact ⟨1, by norm_num⟩
  exact ⟨hw, claimC2 _ _ hw⟩

/-- The case-insensitive-uniqueness invariant of the participant registry: no
two stored names agree after lowercasing. -/
def NoDupNames (ps : List Participant) : Prop :=
  (ps.map fun p => jsLower p.name).Nodup

theorem addParticipant_noDupNames (nameRaw qtyRaw : String) {ps : List Participant}
    (h : NoDupNames ps) : NoDupNames (addParticipant nameRaw qtyRaw ps) := by
  cases hq : jsNumber qtyRaw with
  | none => simpa [addParticipant, hq] using h
  | some q =>
    simp only [addParticipant, hq]
    split_ifs with h1 h2
    · exact h
    · exact h
    · unfold NoDupNames at h ⊢
      rw [List.map_append]
      refine h.append (by simp) ?_
      intro a ha hb
      simp only [List.map_cons, List.map_nil, List.mem_singleton] at hb
      obtain ⟨x, hx, rfl⟩ := List.mem_map.mp ha
      simp only [List.any_eq_true, beq_iff_eq, not_exists, not_and] at h2
      exact h2 x hx hb

theorem bulkStep_noDupNames (ps : List Participant) (line : String) (acc : BulkResult)
    (h : NoDupNames (ps ++ acc.toAdd)) :
    NoDupNames (ps ++ (bulkStep (ps.map fun p => jsLower p.name) acc line).toAdd) := by
  cases hq : jsNumber ((splitFields line).getD 1 "0") with
  | none =>
    simp only [bulkStep, hq]
    exact h
  | some q =>
    simp only [bulkStep, hq]
    split_ifs with h1 h2
    · exact h
    · exact h
    · unfold NoDupNames at h ⊢
      rw [← List.append_assoc, List.map_append]
      refine (by simpa using h : ((ps ++ acc.toAdd).map fun p => jsLower p.name).Nodup).append
        (by simp) ?_
      intro a ha hb
      simp only [List.map_cons, List.map_nil, List.mem_singleton] at hb
      obtain ⟨x, hx, rfl⟩ := List.mem_map.mp ha
      rw [Bool.or_eq_true, not_or] at h2
      obtain ⟨h2l, h2r⟩ := h2
      rcases List.mem_append.mp hx with hx | hx
      · refine h2l ?_
        rw [List.contains_iff_exists_mem_beq]
        exact ⟨jsLower x.name, List.mem_map_of_mem _ hx, by simp [hb]⟩
      · simp only [List.any_eq_true, beq_iff_eq, not_exists, not_and] at h2r
        exact h2r x hx hb

theorem bulkFold_noDupNames (ps : List Participant) :
    ∀ (lines : List String) (acc : BulkResult), NoDupNames (ps ++ acc.toAdd) →
      NoDupNames (ps ++ (lines.foldl (bulkStep (ps.map fun p => jsLower p.name)) acc).toAdd)
  | [], _, h => h
  | line :: lines, acc, h => by
    rw [List.foldl_cons]
    exact bulkFold_noDupNames ps lines _ (bulkStep_noDupNames ps line acc h)

theorem bulkImport_noDupNames (raw : String) {ps : List Participant}
    (h : NoDupNames ps) : NoDupNames (bulkImport raw ps).1 := by
  simp only [bulkImport]
  exact bulkFold_noDupNames ps (splitLines raw) ⟨[], 0⟩ (by simpa [NoDupNames] using h)

/-- The two registration operations quantified over by claim C4. -/
inductive RegAction where
  | reg (nameRaw qtyRaw : String)
  | bulkReg (raw : String)

/-- Apply one registration operation to the participant list. -/
def applyReg (ps : List Participant) : RegAction → List Participant
  | .reg n q => addParticipant n q ps
  | .bulkReg raw => (bulkImport raw ps).1

/-- Claim C4: any sequence of Register and BulkRegister operations, started
from a registry without case-insensitive duplicate names, never produces two
participants whose names agree case-insensitively. -/
theorem claimC4 (acts : List RegAction) (ps : List Participant) (h : NoDupNames ps) :
    NoDupNames (acts.foldl applyReg ps) := by
  induction acts generalizing ps with
  | nil => exact h
  | cons a acts ih =>
    rw [List.foldl_cons]
    apply ih
    cases a with
    | reg n q => exact addParticipant_noDupNames n q h
    | bulkReg raw => exact bulkImport_noDupNames raw h

theorem claimC4_witness :
    NoDupNames [] ∧
    NoDupNames ([RegAction.reg "Ana" "2", RegAction.bulkReg "Bia,1\nana,3"].foldl
      applyReg []) :=
  ⟨by simp [NoDupNames], claimC4 _ [] (by simp [NoDupNames])⟩

/-- The state invariant behind claim C1: ledger prize names are pairwise
distinct, and prize draw-orders are the contiguous sequence `1..N`. -/
def Inv (st : AppState) : Prop :=
  (st.winners.map Winner.prize).Nodup ∧
  st.prizes.map Prize.order = List.range' 1 st.prizes.length

theorem remaining_headD_fresh (prizes : List Prize) (winners : List Winner)
    (h : remainingPrizes prizes winners ≠ []) :
    ∀ w ∈ winners, w.prize ≠ ((remainingPrizes prizes winners).headD ⟨"", 0⟩).name := by
  have hmem : (remainingPrizes prizes winners).headD ⟨"", 0⟩ ∈
      remainingPrizes prizes winners := by
    cases hr : remainingPrizes prizes winners with
    | nil => exact absurd hr h
    | cons a l => simp [hr]
  have hpred := (List.mem_filter.mp hmem).2
  simp only [Bool.not_eq_true', List.any_eq_false, beq_iff_eq] at hpred
  exact hpred

theorem inv_step (st : AppState) (a : Action) (h : Inv st) : Inv (step st a) := by
  obtain ⟨h1, h2⟩ := h
  cases a with
  | register n q => exact ⟨h1, h2⟩
  | bulkAdd raw => exact ⟨h1, h2⟩
  | editQty n v => exact ⟨h1, h2⟩
  | removePart n => exact ⟨h1, h2⟩
  | auditClear => exact ⟨h1, h2⟩
  | resetW => exact ⟨by simp [step, resetWinners], by simpa [step, resetWinners] using h2⟩
  | reset c =>
    cases c with
    | true => exact ⟨by simp [step, hardReset], by simp [step, hardReset]⟩
    | false => exact ⟨h1, h2⟩
  | prizeAdd n =>
    refine ⟨h1, ?_⟩
    show (addPrize n st.prizes).map Prize.order = List.range' 1 (addPrize n st.prizes).length
    simp only [addPrize]
    split
    · exact h2
    · rw [List.map_append, h2, List.length_append]
      simp [List.range'_1_concat, Nat.add_comm]
  | prizeRemove n =>
    refine ⟨h1, ?_⟩
    show (removePrize n st.prizes).map Prize.order =
      List.range' 1 (removePrize n st.prizes).length
    unfold removePrize
    rw [renumberFrom_map_order, renumberFrom_length]
  | drawA r ts d t =>
    simp only [step, drawCore]
    split
    · exact ⟨h1, h2⟩
    split
    · exact ⟨h1, h2⟩
    next hrem =>
      refine ⟨?_, h2⟩
      rw [List.map_append]
      refine h1.append (by simp) ?_
      intro x hx hb
      simp only [List.map_cons, List.map_nil, List.mem_singleton] at hb
      obtain ⟨w, hw, rfl⟩ := List.mem_map.mp hx
      have hne : remainingPrizes st.prizes st.winners ≠ [] := by
        intro hnil
        rw [hnil] at hrem
        exact hrem rfl
      exact remaining_headD_fresh st.prizes st.winners hne w hw hb

theorem reachable_inv {st : AppState} (h : Reachable st) : Inv st := by
  induction h with
  | init => exact ⟨List.nodup_nil, rfl⟩
  | step a _ ih => exact inv_step _ a ih

/-- The award discipline of one successful draw from `st`: the ledger entry's
prize is the first element of `remainingPrizes` (the filter of `prizes` to
those named in no ledger entry), and no remaining prize has a smaller
draw-order. -/
def drawLowest (st : AppState) : Prop :=
  ∀ (r : Nat) (ts d t : String) (w : Winner) (st2 : AppState),
    drawCore r ts d t st = (some w, st2) →
    ∃ pr rest, remainingPrizes st.prizes st.winners = pr :: rest ∧
      w.prize = pr.name ∧
      ∀ q ∈ remainingPrizes st.prizes st.winners, pr.order ≤ q.order

/-- Claim C1: in every reachable state each prize name appears at most once in
the winner ledger, and every successful draw awards the first — equivalently
lowest draw-order — prize among those absent from the ledger. -/
theorem claimC1 (st : AppState) (h : Reachable st) :
    (st.winners.map Winner.prize).Nodup ∧ drawLowest st := by
  obtain ⟨h1, h2⟩ := reachable_inv h
  refine ⟨h1, ?_⟩
  intro r ts d t w st2 hdraw
  simp only [drawCore] at hdraw
  by_cases hp : (couponsPool st.participants st.winners).isEmpty
  · rw [if_pos hp] at hdraw
    exact absurd (congrArg Prod.fst hdraw) (by simp)
  rw [if_neg hp] at hdraw
  by_cases hr : (remainingPrizes st.prizes st.winners).isEmpty
  · rw [if_pos hr] at hdraw
    exact absurd (congrArg Prod.fst hdraw) (by simp)
  rw [if_neg hr] at hdraw
  have hw := congrArg Prod.fst hdraw
  simp only at hw
  cases hcons : remainingPrizes st.prizes st.winners with
  | nil => exact absurd (List.isEmpty_iff.mpr hcons) hr
  | cons pr rest =>
    refine ⟨pr, rest, rfl, ?_, ?_⟩
    · rw [← Option.some.inj hw, hcons]
      rfl
    · have hlt : (st.prizes.map Prize.order).Pairwise (· < ·) := by
        rw [h2]
        exact List.pairwise_lt_range' 1 st.prizes.length
      have hord : st.prizes.Pairwise fun a b => a.order < b.order :=
        List.pairwise_map.mp hlt
      have hremp : (remainingPrizes st.prizes st.winners).Pairwise
          fun a b => a.order < b.order := hord.filter _
      rw [hcons] at hremp
      intro q hq
      rcases List.mem_cons.mp hq with rfl | hq
      · exact le_refl _
      · exact le_of_lt ((List.pairwise_cons.mp hremp).1 q hq)

theorem claimC1_witness :
    Reachable (step (step initState (Action.prizeAdd "P")) (Action.register "A" "1")) ∧
    (((step (step initState (Action.prizeAdd "P"))
          (Action.register "A" "1")).winners.map Winner.prize).Nodup ∧
      drawLowest (step (step initState (Action.prizeAdd "P")) (Action.register "A" "1"))) :=
  have hr : Reachable (step (step initState (Action.prizeAdd "P"))
      (Action.register "A" "1")) :=
    Reachable.step (Action.register "A" "1")
      (Reachable.step (Action.prizeAdd "P") Reachable.init)
  ⟨hr, claimC1 _ hr⟩

end Raffle
